import Mathlib

/-!
Verification of `maint/GenerateUtt.py` (pcer repository).

The script builds a table of (name, type-tag) pairs from four input lists,
sorts it with Python 2's default ordering (lexicographic on tuples, byte-wise
on strings), and prints to stdout:
  1. one `#define STRING_<ident>0 STR_c ... "\0"` line per entry,
  2. a `_pcre_utt_names` declaration listing the STRING_ identifiers in order,
  3. a `_pcre_utt` table of `{ offset, tag, value }` rows with running offsets.

All names in the script are ASCII, so Python 2's byte-wise `str` comparison
coincides with lexicographic comparison of character codes, which is how it
is embedded here (`ltCodes` over `Char.toNat` lists).  Python's `list.sort`
is modelled by `List.insertionSort` over the same ordering: sorting here is
applied to full (name, tag) tuples, so elements that compare equal are
identical tuples and every correct sorting algorithm produces the same list;
stability is irrelevant.
-/

namespace GenerateUtt

/-- The `script_names` list from the source. -/
def script_names : List String :=
  ["Arabic", "Armenian", "Bengali", "Bopomofo", "Braille", "Buginese", "Buhid",
   "Canadian_Aboriginal", "Cherokee", "Common", "Coptic", "Cypriot", "Cyrillic",
   "Deseret", "Devanagari", "Ethiopic", "Georgian", "Glagolitic", "Gothic",
   "Greek", "Gujarati", "Gurmukhi", "Han", "Hangul", "Hanunoo", "Hebrew",
   "Hiragana", "Inherited", "Kannada", "Katakana", "Kharoshthi", "Khmer",
   "Lao", "Latin", "Limbu", "Linear_B", "Malayalam", "Mongolian", "Myanmar",
   "New_Tai_Lue", "Ogham", "Old_Italic", "Old_Persian", "Oriya", "Osmanya",
   "Runic", "Shavian", "Sinhala", "Syloti_Nagri", "Syriac", "Tagalog",
   "Tagbanwa", "Tai_Le", "Tamil", "Telugu", "Thaana", "Thai", "Tibetan",
   "Tifinagh", "Ugaritic", "Yi",
   "Balinese", "Cuneiform", "Nko", "Phags_Pa", "Phoenician",
   "Carian", "Cham", "Kayah_Li", "Lepcha", "Lycian", "Lydian", "Ol_Chiki",
   "Rejang", "Saurashtra", "Sundanese", "Vai"]

/-- The `category_names` list from the source. -/
def category_names : List String :=
  ["Cc", "Cf", "Cn", "Co", "Cs", "Ll", "Lm", "Lo", "Lt", "Lu",
   "Mc", "Me", "Mn", "Nd", "Nl", "No", "Pc", "Pd", "Pe", "Pf", "Pi", "Po",
   "Ps", "Sc", "Sk", "Sm", "So", "Zl", "Zp", "Zs"]

/-- The `general_category_names` list from the source. -/
def general_category_names : List String :=
  ["C", "L", "M", "N", "P", "S", "Z"]

/-- Byte-wise strict lexicographic comparison on lists of character codes:
the semantics of Python 2 `str.__lt__` for byte strings (a strict prefix is
smaller; otherwise the first differing position decides). -/
def ltCodes : List Nat → List Nat → Bool
  | [], [] => false
  | [], _ :: _ => true
  | _ :: _, [] => false
  | a :: as, b :: bs => if a < b then true else if b < a then false else ltCodes as bs

/-- The character codes of a string (for the ASCII data of this script,
code points and bytes coincide). -/
def strCodes (s : String) : List Nat := s.data.map Char.toNat

/-- Python 2 `str` strict comparison, byte-wise. -/
def pyStrLt (s t : String) : Bool := ltCodes (strCodes s) (strCodes t)

/-- Python 2 `str` non-strict comparison. -/
def pyStrLe (s t : String) : Bool := !(pyStrLt t s)

/-- Python 2 comparison of `(name, tag)` tuples, as used by `utt_table.sort()`:
lexicographic on the components. -/
def pyPairLe (a b : String × String) : Bool :=
  pyStrLt a.1 b.1 || (a.1 == b.1 && pyStrLe a.2 b.2)

/-- `pyPairLe` as a relation, for `List.insertionSort`. -/
def sortRel (a b : String × String) : Prop := pyPairLe a b = true

instance : DecidableRel sortRel := fun a b => instDecidableEqBool (pyPairLe a b) true

/-- The unsorted `utt_table`: zips of the three lists with their tags,
plus the two appended pseudo-entries, exactly as in the source
(`zip(script_names, ['PT_SC'] * len(script_names))` etc.). -/
def baseTable (scripts cats gens : List String) : List (String × String) :=
  scripts.map (fun n => (n, "PT_SC")) ++ cats.map (fun n => (n, "PT_PC")) ++
    gens.map (fun n => (n, "PT_GC")) ++ [("L&", "PT_LAMP"), ("Any", "PT_ANY")]

/-- `utt_table.sort()`: Python's sort under the default tuple ordering. -/
def sortTable (l : List (String × String)) : List (String × String) :=
  l.insertionSort sortRel

/-- `utt[0].replace('&', '_AMPERSAND')`: every ampersand character is replaced
by the nine characters `_AMPERSAND`. -/
def replaceAmp (name : String) : String :=
  String.mk (name.data.flatMap fun c => if c = '&' then "_AMPERSAND".data else [c])

/-- The token printed for one character of a name in the `#define` line:
`STR_UNDERSCORE` for an underscore, `STR_AMPERSAND` for an ampersand, and
`'STR_%s' % c` for everything else. -/
def charTok (c : Char) : String :=
  if c = '_' then "STR_UNDERSCORE"
  else if c = '&' then "STR_AMPERSAND"
  else "STR_" ++ String.mk [c]

/-- The terminator token closing every `#define` line: the C literal `"\0"`. -/
def endTok : String := "\"\\0\""

/-- The token sequence of one entry's symbol definition: one token per
character of the name, then the terminator. -/
def spellingToks (name : String) : List String :=
  name.data.map charTok ++ [endTok]

/-- The `STRING_<...>0` identifier as computed (twice) in the source:
`'STRING_%s0' % (utt[0].replace('&', '_AMPERSAND'))`. -/
def identOfDefine (name : String) : String := "STRING_" ++ replaceAmp name ++ "0"

/-- Artifact 1, structurally: for each entry, its identifier and its spelling
tokens (first `for` loop of the source). -/
def definesOf (t : List (String × String)) : List (String × List String) :=
  t.map fun u => ("STRING_" ++ replaceAmp u.1 ++ "0", spellingToks u.1)

/-- Artifact 2, structurally: the `_pcre_utt_names` references, recomputing the
identifier exactly as the second loop of the source does. -/
def namesBlobRefs (t : List (String × String)) : List String :=
  t.map fun u => "STRING_" ++ replaceAmp u.1 ++ "0"

/-- The names blob after macro expansion: the concatenation of every entry's
spelling tokens, in table order. -/
def namesBlobToks (t : List (String × String)) : List String :=
  (t.map fun u => spellingToks u.1).flatten

/-- The `value` field of a `_pcre_utt` row: `'0'` for the `PT_ANY`/`PT_LAMP`
tags, `'ucp_' + utt[0]` otherwise. -/
def value (u : String × String) : String :=
  if u.2 == "PT_ANY" || u.2 == "PT_LAMP" then "0" else "ucp_" ++ u.1

/-- Artifact 3, structurally: the `(offset, tag, value)` rows of `_pcre_utt`,
with the running offset starting at `off` and advancing by
`len(utt[0]) + 1` per row. -/
def uttRows : Nat → List (String × String) → List (Nat × String × String)
  | _, [] => []
  | off, u :: rest => (off, u.2, value u) :: uttRows (off + u.1.length + 1) rest

/-- Splitting a token list at the terminator tokens: the list of
terminator-free chunks, one per terminator, in order (tokens after the last
terminator, if any, belong to no completed chunk). -/
def splitTerm : List String → List (List String)
  | [] => []
  | t :: rest =>
    if t = endTok then [] :: splitTerm rest
    else
      match splitTerm rest with
      | [] => []
      | g :: gs => (t :: g) :: gs

/-- Inverse of `charTok` on spelling tokens: recovers the character a token
stands for. -/
def tokChar (t : String) : Char :=
  if t = "STR_UNDERSCORE" then '_'
  else if t = "STR_AMPERSAND" then '&'
  else t.data.getD 4 ' '

/-- The offset column of `uttRows`, expressed over the name list alone:
the running offset starts at `k` and advances by `length + 1` per name. -/
def offsetsFrom : Nat → List String → List Nat
  | _, [] => []
  | k, n :: ns => k :: offsetsFrom (k + n.length + 1) ns

/-- Following the wording of the specification only (not the source): the
identifier with `&` replaced by the word `AMPERSAND` alone.  The source
instead replaces `&` by `_AMPERSAND`; the two are compared below. -/
def replaceAmpSpecWording (name : String) : String :=
  String.mk (name.data.flatMap fun c => if c = '&' then "AMPERSAND".data else [c])

/-- The identifier as the specification words it (see `replaceAmpSpecWording`). -/
def identOfSpecWording (name : String) : String :=
  "STRING_" ++ replaceAmpSpecWording name ++ "0"

/-- `'%3d' % n`: decimal digits, right-aligned to width 3 with spaces. -/
def pad3 (n : Nat) : String :=
  let s := toString n
  if 3 ≤ s.length then s else String.mk (List.replicate (3 - s.length) ' ') ++ s

/-- The bytes of one line of the first loop.  Python 2 `print` with a
trailing comma separates successive items of one line by single spaces. -/
def defineLine (u : String × String) : String :=
  "#define STRING_" ++ replaceAmp u.1 ++ "0" ++
    String.join (u.1.data.map fun c => " " ++ charTok c) ++ " " ++ endTok ++ "\n"

/-- The lines of the `_pcre_utt_names` loop.  The source sets `last = ';'`
once the current entry compares equal to `utt_table[-1]` and never resets
it, which is modelled by threading `last` through the recursion. -/
def blobLines : String → Option (String × String) → List (String × String) → List String
  | _, _, [] => []
  | suffix, final, u :: rest =>
    let suffix2 := if some u = final then ";" else suffix
    ("  STRING_" ++ replaceAmp u.1 ++ "0" ++ suffix2 ++ "\n") ::
      blobLines suffix2 final rest

/-- The lines of the `_pcre_utt` loop: running offset, `last` flag switching
from `","` to `""` at the final entry, and the row format
`'  { %3d, %s, %s }%s '`. -/
def tableLines : Nat → String → Option (String × String) → List (String × String) → List String
  | _, _, _, [] => []
  | off, suffix, final, u :: rest =>
    let suffix2 := if some u = final then "" else suffix
    ("  \x7b " ++ pad3 off ++ ", " ++ u.2 ++ ", " ++ value u ++ " \x7d" ++ suffix2 ++ " \n") ::
      tableLines (off + u.1.length + 1) suffix2 final rest

/-- The complete byte stream the script writes to stdout, as a function of
the three variable input lists. -/
def generate (scripts cats gens : List String) : String :=
  let t := sortTable (baseTable scripts cats gens)
  String.join (t.map defineLine) ++
    "\n" ++
    "const char _pcre_utt_names[] = \n" ++
    String.join (blobLines "" t.getLast? t) ++
    "\nconst ucp_type_table _pcre_utt[] = \x7b \n" ++
    String.join (tableLines 0 "," t.getLast? t) ++
    "\x7d;\n"

/-! ### Properties of the Python string and tuple orderings -/

theorem ltCodes_asymm : ∀ x y, ltCodes x y = true → ltCodes y x = false := by
  intro x
  induction x with
  | nil =>
    intro y h
    cases y with
    | nil => simp [ltCodes] at h
    | cons b bs => simp [ltCodes]
  | cons a as ih =>
    intro y h
    cases y with
    | nil => simp [ltCodes] at h
    | cons b bs =>
      rcases Nat.lt_trichotomy a b with hab | hab | hab
      · have h1 : ¬ b < a := by omega
        simp [ltCodes, h1, hab]
      · subst hab
        have h1 : ¬ a < a := by omega
        simp only [ltCodes, if_neg h1] at h ⊢
        exact ih bs h
      · have h1 : ¬ a < b := by omega
        simp [ltCodes, h1, hab] at h

theorem ltCodes_connex : ∀ x y, ltCodes x y = false → ltCodes y x = false → x = y := by
  intro x
  induction x with
  | nil =>
    intro y h _
    cases y with
    | nil => rfl
    | cons b bs => simp [ltCodes] at h
  | cons a as ih =>
    intro y h h2
    cases y with
    | nil => simp [ltCodes] at h2
    | cons b bs =>
      rcases Nat.lt_trichotomy a b with hab | hab | hab
      · simp [ltCodes, hab] at h
      · subst hab
        have h1 : ¬ a < a := by omega
        simp only [ltCodes, if_neg h1] at h h2
        rw [ih bs h h2]
      · simp [ltCodes, hab] at h2

theorem ltCodes_trans : ∀ x y z, ltCodes x y = true → ltCodes y z = true →
    ltCodes x z = true := by
  intro x
  induction x with
  | nil =>
    intro y z h h2
    cases z with
    | nil =>
      cases y with
      | nil => exact h
      | cons b bs => simp [ltCodes] at h2
    | cons c cs => simp [ltCodes]
  | cons a as ih =>
    intro y z h h2
    cases y with
    | nil => simp [ltCodes] at h
    | cons b bs =>
      cases z with
      | nil => simp [ltCodes] at h2
      | cons c cs =>
        rcases Nat.lt_trichotomy a b with hab | hab | hab
        · rcases Nat.lt_trichotomy b c with hbc | hbc | hbc
          · have h3 : a < c := by omega
            simp [ltCodes, h3]
          · subst hbc
            simp [ltCodes, hab]
          · have h1 : ¬ b < c := by omega
            simp [ltCodes, h1, hbc] at h2
        · subst hab
          rcases Nat.lt_trichotomy a c with hac | hac | hac
          · simp [ltCodes, hac]
          · subst hac
            have h1 : ¬ a < a := by omega
            simp only [ltCodes, if_neg h1] at h h2 ⊢
            exact ih bs cs h h2
          · have h1 : ¬ a < c := by omega
            simp [ltCodes, h1, hac] at h2
        · have h1 : ¬ a < b := by omega
          simp [ltCodes, h1, hab] at h

theorem strCodes_inj {s t : String} (h : strCodes s = strCodes t) : s = t := by
  have hmap : ∀ x y : List Char, x.map Char.toNat = y.map Char.toNat → x = y := by
    intro x
    induction x with
    | nil =>
      intro y hy
      cases y with
      | nil => rfl
      | cons c cs => simp at hy
    | cons c cs ih =>
      intro y hy
      cases y with
      | nil => simp at hy
      | cons d ds =>
        simp only [List.map_cons, List.cons.injEq] at hy
        obtain ⟨h1, h2⟩ := hy
        have hcd : c = d := by
          have h3 : c.val.toNat = d.val.toNat := h1
          exact Char.ext (UInt32.toNat.inj h3)
        rw [hcd, ih ds h2]
  have hd : s.data = t.data := hmap _ _ h
  exact congrArg String.mk hd

theorem pyStrLt_asymm (s t : String) (h : pyStrLt s t = true) : pyStrLt t s = false :=
  ltCodes_asymm _ _ h

theorem pyStrLt_connex (s t : String) (h : pyStrLt s t = false)
    (h2 : pyStrLt t s = false) : s = t :=
  strCodes_inj (ltCodes_connex _ _ h h2)

theorem pyStrLt_trans (s t u : String) (h : pyStrLt s t = true)
    (h2 : pyStrLt t u = true) : pyStrLt s u = true :=
  ltCodes_trans _ _ _ h h2

theorem pyPairLe_iff (a b : String × String) :
    pyPairLe a b = true ↔
      pyStrLt a.1 b.1 = true ∨ (a.1 = b.1 ∧ pyStrLt b.2 a.2 = false) := by
  simp [pyPairLe, pyStrLe, Bool.or_eq_true, Bool.and_eq_true, beq_iff_eq,
    Bool.not_eq_true']

instance : IsTotal (String × String) sortRel := by
  constructor
  intro a b
  unfold sortRel
  rw [pyPairLe_iff, pyPairLe_iff]
  rcases Bool.eq_false_or_eq_true (pyStrLt a.1 b.1) with hab | hab
  · exact Or.inl (Or.inl hab)
  · rcases Bool.eq_false_or_eq_true (pyStrLt b.1 a.1) with hba | hba
    · exact Or.inr (Or.inl hba)
    · have h1 : a.1 = b.1 := pyStrLt_connex _ _ hab hba
      rcases Bool.eq_false_or_eq_true (pyStrLt b.2 a.2) with h2 | h2
      · exact Or.inr (Or.inr ⟨h1.symm, pyStrLt_asymm _ _ h2⟩)
      · exact Or.inl (Or.inr ⟨h1, h2⟩)

instance : IsTrans (String × String) sortRel := by
  constructor
  intro a b c hab hbc
  unfold sortRel at hab hbc ⊢
  rw [pyPairLe_iff] at hab hbc ⊢
  rcases hab with h1 | ⟨h1, h1'⟩
  · rcases hbc with h2 | ⟨h2, h2'⟩
    · exact Or.inl (pyStrLt_trans _ _ _ h1 h2)
    · exact Or.inl (h2 ▸ h1)
  · rcases hbc with h2 | ⟨h2, h2'⟩
    · exact Or.inl (h1 ▸ h2)
    · refine Or.inr ⟨h1.trans h2, ?_⟩
      cases h3 : pyStrLt c.2 a.2 with
      | false => rfl
      | true =>
        exfalso
        cases h4 : pyStrLt a.2 b.2 with
        | true =>
          have h5 := pyStrLt_trans _ _ _ h3 h4
          rw [h2'] at h5
          exact Bool.false_ne_true h5
        | false =>
          have heq : a.2 = b.2 := pyStrLt_connex _ _ h4 h1'
          rw [heq, h2'] at h3
          exact Bool.false_ne_true h3

/-! ### Offset bookkeeping -/

theorem offsetsFrom_length : ∀ (ns : List String) (k : Nat),
    (offsetsFrom k ns).length = ns.length := by
  intro ns
  induction ns with
  | nil => intro k; rfl
  | cons n ns ih => intro k; simp [offsetsFrom, ih]

theorem uttRows_map_fst : ∀ (k : Nat) (t : List (String × String)),
    (uttRows k t).map Prod.fst = offsetsFrom k (t.map Prod.fst) := by
  intro k t
  induction t generalizing k with
  | nil => rfl
  | cons u us ih => simp [uttRows, offsetsFrom, ih]

theorem offsetsFrom_getD_succ : ∀ (ns : List String) (k i : Nat),
    i + 1 < ns.length →
    (offsetsFrom k ns).getD (i + 1) 0 =
      (offsetsFrom k ns).getD i 0 + (ns.getD i "").length + 1 := by
  intro ns
  induction ns with
  | nil => intro k i h; simp at h
  | cons n ns ih =>
    intro k i h
    cases i with
    | zero =>
      cases ns with
      | nil => simp at h
      | cons m ms => simp [offsetsFrom]
    | succ j =>
      have h2 : j + 1 < ns.length := by simpa using h
      simpa [offsetsFrom] using ih (k + n.length + 1) j h2

theorem offsetsFrom_chain : ∀ (ns : List String) (k : Nat),
    List.Chain' (fun a b : Nat => a < b) (offsetsFrom k ns) := by
  intro ns
  induction ns with
  | nil => intro k; simp [offsetsFrom]
  | cons n ns ih =>
    intro k
    cases ns with
    | nil => simp [offsetsFrom]
    | cons m ms =>
      have h1 := ih (k + n.length + 1)
      simp only [offsetsFrom] at h1 ⊢
      rw [List.chain'_cons]
      exact ⟨by omega, h1⟩

/-! ### Claim theorems -/

/-- C1: for every input whose merged entry names are pairwise distinct, the
table produced by `utt_table.sort()` is in strictly ascending byte-wise name
order — every adjacent pair of entries satisfies `name i < name (i+1)` in
plain lexicographic order over character codes (`pyStrLt`). -/
theorem sorted_table_names_strictly_ascending (scripts cats gens : List String)
    (h : ((baseTable scripts cats gens).map Prod.fst).Nodup) :
    (sortTable (baseTable scripts cats gens)).Chain'
      (fun a b => pyStrLt a.1 b.1 = true) := by
  have hs : (sortTable (baseTable scripts cats gens)).Pairwise sortRel :=
    List.sorted_insertionSort sortRel _
  have hperm : (sortTable (baseTable scripts cats gens)).Perm
      (baseTable scripts cats gens) :=
    List.perm_insertionSort sortRel _
  have hnodup : ((sortTable (baseTable scripts cats gens)).map Prod.fst).Nodup :=
    ((hperm.map Prod.fst).nodup_iff).mpr h
  have hne : (sortTable (baseTable scripts cats gens)).Pairwise
      (fun a b => a.1 ≠ b.1) := by
    simpa [List.Nodup, List.pairwise_map] using hnodup
  have hlt : (sortTable (baseTable scripts cats gens)).Pairwise
      (fun a b => pyStrLt a.1 b.1 = true) := by
    refine (hs.and hne).imp ?_
    intro a b hab
    obtain ⟨h1, h2⟩ := hab
    rcases (pyPairLe_iff a b).mp h1 with h3 | ⟨h3, _⟩
    · exact h3
    · exact absurd h3 h2
  exact hlt.chain'

/-- Witness for C1 at the worked-example input. -/
theorem sorted_table_names_strictly_ascending_witness :
    ((baseTable ["Latin"] ["Lu"] ["L"]).map Prod.fst).Nodup ∧
      (sortTable (baseTable ["Latin"] ["Lu"] ["L"])).Chain'
        (fun a b => pyStrLt a.1 b.1 = true) :=
  ⟨by decide, sorted_table_names_strictly_ascending _ _ _ (by decide)⟩

/-- C2: for every table, the emitted offset column starts at `0`, obeys
`offset (i+1) = offset i + length (name i) + 1`, and (names being non-empty)
is strictly increasing. -/
theorem utt_offsets_recurrence (t : List (String × String))
    (hne : ∀ u ∈ t, u.1 ≠ "") :
    (0 < t.length → ((uttRows 0 t).map Prod.fst).getD 0 0 = 0) ∧
    (∀ i : Nat, i + 1 < t.length →
      ((uttRows 0 t).map Prod.fst).getD (i + 1) 0 =
        ((uttRows 0 t).map Prod.fst).getD i 0 +
          ((t.map Prod.fst).getD i "").length + 1) ∧
    ((uttRows 0 t).map Prod.fst).Chain' (fun a b : Nat => a < b) := by
  refine ⟨?_, ?_, ?_⟩
  · intro h0
    cases t with
    | nil => simp at h0
    | cons u us => simp [uttRows]
  · intro i hi
    rw [uttRows_map_fst]
    exact offsetsFrom_getD_succ (t.map Prod.fst) 0 i (by simpa using hi)
  · rw [uttRows_map_fst]
    exact offsetsFrom_chain (t.map Prod.fst) 0

/-- Witness for C2 at the worked-example table. -/
theorem utt_offsets_recurrence_witness :
    (∀ u ∈ sortTable (baseTable ["Latin"] ["Lu"] ["L"]), u.1 ≠ "") ∧
    ((0 < (sortTable (baseTable ["Latin"] ["Lu"] ["L"])).length →
      ((uttRows 0 (sortTable (baseTable ["Latin"] ["Lu"] ["L"]))).map
        Prod.fst).getD 0 0 = 0) ∧
    (∀ i : Nat, i + 1 < (sortTable (baseTable ["Latin"] ["Lu"] ["L"])).length →
      ((uttRows 0 (sortTable (baseTable ["Latin"] ["Lu"] ["L"]))).map
        Prod.fst).getD (i + 1) 0 =
        ((uttRows 0 (sortTable (baseTable ["Latin"] ["Lu"] ["L"]))).map
          Prod.fst).getD i 0 +
          (((sortTable (baseTable ["Latin"] ["Lu"] ["L"])).map
            Prod.fst).getD i "").length + 1) ∧
    ((uttRows 0 (sortTable (baseTable ["Latin"] ["Lu"] ["L"]))).map
      Prod.fst).Chain' (fun a b : Nat => a < b)) :=
  ⟨by decide, utt_offsets_recurrence _ (by decide)⟩

/-! ### Spelling tokens and the names blob -/

theorem charTok_ne_endTok (c : Char) : charTok c ≠ endTok := by
  unfold charTok
  split_ifs with h1 h2
  · decide
  · decide
  · intro h
    have h2 := congrArg (fun s => s.data.length) h
    simp [String.data_append, endTok] at h2

theorem tokChar_charTok (c : Char) : tokChar (charTok c) = c := by
  by_cases h1 : c = '_'
  · subst h1; decide
  · by_cases h2 : c = '&'
    · subst h2; decide
    · have hc : charTok c = "STR_" ++ String.mk [c] := by
        unfold charTok
        rw [if_neg h1, if_neg h2]
      have hne1 : "STR_" ++ String.mk [c] ≠ "STR_UNDERSCORE" := by
        intro h
        have h3 := congrArg (fun s => s.data.length) h
        simp [String.data_append] at h3
      have hne2 : "STR_" ++ String.mk [c] ≠ "STR_AMPERSAND" := by
        intro h
        have h3 := congrArg (fun s => s.data.length) h
        simp [String.data_append] at h3
      have hdata : ("STR_" ++ String.mk [c]).data = ['S', 'T', 'R', '_', c] := by
        simp [String.data_append]
      rw [hc]
      unfold tokChar
      rw [if_neg hne1, if_neg hne2, hdata]
      rfl

theorem splitTerm_append (chunk rest : List String)
    (h : ∀ x ∈ chunk, x ≠ endTok) :
    splitTerm (chunk ++ endTok :: rest) = chunk :: splitTerm rest := by
  induction chunk with
  | nil => simp [splitTerm]
  | cons t ts ih =>
    have ht : t ≠ endTok := h t (by simp)
    have h2 : ∀ x ∈ ts, x ≠ endTok := fun x hx => h x (by simp [hx])
    simp only [List.cons_append, splitTerm, if_neg ht, List.append_eq]
    rw [ih h2]

theorem namesBlobToks_cons (u : String × String) (us : List (String × String)) :
    namesBlobToks (u :: us) =
      (u.1.data.map charTok) ++ endTok :: namesBlobToks us := by
  simp [namesBlobToks, spellingToks]

theorem splitTerm_namesBlob (t : List (String × String)) :
    splitTerm (namesBlobToks t) = t.map fun u => u.1.data.map charTok := by
  induction t with
  | nil => rfl
  | cons u us ih =>
    have hch : ∀ x ∈ u.1.data.map charTok, x ≠ endTok := by
      intro x hx
      obtain ⟨c, _, rfl⟩ := List.mem_map.mp hx
      exact charTok_ne_endTok c
    rw [namesBlobToks_cons, splitTerm_append _ _ hch, ih]
    rfl

theorem count_endTok_namesBlob (t : List (String × String)) :
    (namesBlobToks t).count endTok = t.length := by
  induction t with
  | nil => rfl
  | cons u us ih =>
    have hzero : (u.1.data.map charTok).count endTok = 0 := by
      rw [List.count_eq_zero]
      intro hmem
      obtain ⟨c, _, hceq⟩ := List.mem_map.mp hmem
      exact charTok_ne_endTok c hceq
    rw [namesBlobToks_cons, List.count_append, hzero, List.count_cons_self, ih]
    simp

theorem uttRows_getD_snd : ∀ (t : List (String × String)) (k i : Nat),
    i < t.length →
    ((uttRows k t).getD i (0, "", "")).2 =
      ((t.getD i ("", "")).2, value (t.getD i ("", ""))) := by
  intro t
  induction t with
  | nil => intro k i h; simp at h
  | cons u us ih =>
    intro k i h
    cases i with
    | zero => simp [uttRows]
    | succ j => simpa [uttRows] using ih (k + u.1.length + 1) j (by simpa using h)

theorem ucp_append_ne_zero (s : String) : ("ucp_" ++ s) ≠ "0" := by
  intro h
  have h2 : ("ucp_" ++ s).data = "0".data := by rw [h]
  simp [String.data_append] at h2

theorem ucp_append_ne_empty (s : String) : ("ucp_" ++ s) ≠ "" := by
  intro h
  have h2 : ("ucp_" ++ s).data = "".data := by rw [h]
  simp [String.data_append] at h2

/-- C3: the worked example — scripts `["Latin"]`, categories `["Lu"]`,
general categories `["L"]` plus the two pseudo-entries — yields exactly these
five rows in this order.  `PT_ANY`, `PT_GC`, `PT_LAMP`, `PT_SC`, `PT_PC` are
the source's spellings of the spec's AnySpecial, GeneralCategory,
LampSpecial, Script and Category tags. -/
theorem worked_example_rows :
    uttRows 0 (sortTable (baseTable ["Latin"] ["Lu"] ["L"])) =
      [(0, "PT_ANY", "0"), (4, "PT_GC", "ucp_L"), (6, "PT_LAMP", "0"),
       (9, "PT_SC", "ucp_Latin"), (15, "PT_PC", "ucp_Lu")] := by decide

/-- C4: splitting the (macro-expanded) names blob at the terminator tokens
and reading each token back as its character reconstructs exactly the sorted
name list, in order; and the blob holds exactly one terminator per entry. -/
theorem names_blob_roundtrip (scripts cats gens : List String) :
    ((splitTerm (namesBlobToks (sortTable (baseTable scripts cats gens)))).map
        fun chunk => String.mk (chunk.map tokChar)) =
      (sortTable (baseTable scripts cats gens)).map Prod.fst ∧
    (namesBlobToks (sortTable (baseTable scripts cats gens))).count endTok =
      (sortTable (baseTable scripts cats gens)).length := by
  constructor
  · rw [splitTerm_namesBlob]
    induction sortTable (baseTable scripts cats gens) with
    | nil => rfl
    | cons u us ih =>
      simp only [List.map_cons, List.cons.injEq]
      refine ⟨?_, ih⟩
      rw [List.map_map]
      have hdat : u.1.data.map (tokChar ∘ charTok) = u.1.data := by
        induction u.1.data with
        | nil => rfl
        | cons c cs ihc => simp [Function.comp, tokChar_charTok, ihc]
      rw [hdat]
  · exact count_endTok_namesBlob _

/-- C5: in every emitted lookup-table row, the value field is the zero
sentinel `"0"` exactly when the row's tag is `PT_ANY` (AnySpecial) or
`PT_LAMP` (LampSpecial); for every other tag it is the non-empty string
`ucp_` prefixed to the entry's name. -/
theorem row_value_sentinel (t : List (String × String)) (i : Nat)
    (h : i < t.length) :
    (((uttRows 0 t).getD i (0, "", "")).2.2 = "0" ↔
      ((uttRows 0 t).getD i (0, "", "")).2.1 = "PT_ANY" ∨
      ((uttRows 0 t).getD i (0, "", "")).2.1 = "PT_LAMP") ∧
    (((uttRows 0 t).getD i (0, "", "")).2.1 ≠ "PT_ANY" →
      ((uttRows 0 t).getD i (0, "", "")).2.1 ≠ "PT_LAMP" →
      ((uttRows 0 t).getD i (0, "", "")).2.2 = "ucp_" ++ (t.getD i ("", "")).1 ∧
      ((uttRows 0 t).getD i (0, "", "")).2.2 ≠ "") := by
  rw [uttRows_getD_snd t 0 i h]
  generalize t.getD i ("", "") = u
  by_cases hA : u.2 = "PT_ANY"
  · constructor
    · simp [value, hA]
    · intro hcontra _
      exact absurd hA hcontra
  · by_cases hL : u.2 = "PT_LAMP"
    · constructor
      · simp [value, hL]
      · intro _ hcontra
        exact absurd hL hcontra
    · have hv : value u = "ucp_" ++ u.1 := by
        simp [value, hA, hL]
      refine ⟨?_, fun _ _ => ⟨hv, hv ▸ ucp_append_ne_empty _⟩⟩
      rw [hv]
      constructor
      · intro h0
        exact absurd h0 (ucp_append_ne_zero _)
      · rintro (h0 | h0)
        · exact absurd h0 hA
        · exact absurd h0 hL

/-- Witness for C5 at the worked-example table, row 3 (`Latin`). -/
theorem row_value_sentinel_witness :
    (3 < (sortTable (baseTable ["Latin"] ["Lu"] ["L"])).length) ∧
    ((((uttRows 0 (sortTable (baseTable ["Latin"] ["Lu"] ["L"]))).getD 3
        (0, "", "")).2.2 = "0" ↔
      ((uttRows 0 (sortTable (baseTable ["Latin"] ["Lu"] ["L"]))).getD 3
        (0, "", "")).2.1 = "PT_ANY" ∨
      ((uttRows 0 (sortTable (baseTable ["Latin"] ["Lu"] ["L"]))).getD 3
        (0, "", "")).2.1 = "PT_LAMP") ∧
    (((uttRows 0 (sortTable (baseTable ["Latin"] ["Lu"] ["L"]))).getD 3
        (0, "", "")).2.1 ≠ "PT_ANY" →
      ((uttRows 0 (sortTable (baseTable ["Latin"] ["Lu"] ["L"]))).getD 3
        (0, "", "")).2.1 ≠ "PT_LAMP" →
      ((uttRows 0 (sortTable (baseTable ["Latin"] ["Lu"] ["L"]))).getD 3
        (0, "", "")).2.2 =
        "ucp_" ++ ((sortTable (baseTable ["Latin"] ["Lu"] ["L"])).getD 3
          ("", "")).1 ∧
      ((uttRows 0 (sortTable (baseTable ["Latin"] ["Lu"] ["L"]))).getD 3
        (0, "", "")).2.2 ≠ "")) :=
  ⟨by decide, row_value_sentinel _ 3 (by decide)⟩

/-- C6: the emitted symbol spelling has one token per character of the name,
in order — the dedicated underscore token for `_`, the dedicated ampersand
token for `&`, and a token named directly after the character otherwise —
and is closed by the dedicated end-of-string terminator in the final
position. -/
theorem spelling_per_char (name : String) :
    (∀ (i : Nat) (c : Char), name.data[i]? = some c →
      (spellingToks name)[i]? =
        some (if c = '_' then "STR_UNDERSCORE"
          else if c = '&' then "STR_AMPERSAND"
          else "STR_" ++ String.mk [c])) ∧
    (spellingToks name)[name.data.length]? = some endTok ∧
    (spellingToks name).length = name.data.length + 1 := by
  refine ⟨?_, ?_, ?_⟩
  · intro i c hc
    have hi : i < name.data.length := (List.getElem?_eq_some.mp hc).1
    unfold spellingToks
    rw [List.getElem?_append_left (by simpa using hi)]
    rw [List.getElem?_map, hc]
    rfl
  · unfold spellingToks
    rw [List.getElem?_append_right (by simp)]
    simp
  · simp [spellingToks]

/-- Witness for C6 at the name `L&`, position 1. -/
theorem spelling_per_char_witness :
    ("L&".data[1]? = some '&') ∧
    (spellingToks "L&")[1]? =
      some (if '&' = '_' then "STR_UNDERSCORE"
        else if '&' = '&' then "STR_AMPERSAND"
        else "STR_" ++ String.mk ['&']) :=
  ⟨by decide, (spelling_per_char "L&").1 1 '&' (by decide)⟩

/-- C7 counterexample: fed a name containing `#` — a character outside
letters, `_` and `&`, hence with no defined token mapping — the generator
does not abort: it silently emits a complete spelling containing the
made-up token `STR_#`. -/
theorem unmappable_char_emitted :
    spellingToks "a#" = ["STR_a", "STR_#", endTok] := by decide

/-- C7 amended: generation never fails.  For every input, including names
with characters outside letters, `_` and `&`, the pipeline completes and
produces one symbol definition per entry (`s + c + g + 2` in total); a
character other than `_` and `&` is emitted as `STR_` followed by the
character itself, with no validation. -/
theorem generation_never_fails (scripts cats gens : List String) :
    (definesOf (sortTable (baseTable scripts cats gens))).length =
      scripts.length + cats.length + gens.length + 2 ∧
    ∀ c : Char, c ≠ '_' → c ≠ '&' → charTok c = "STR_" ++ String.mk [c] := by
  constructor
  · have hlen : (sortTable (baseTable scripts cats gens)).length =
        (baseTable scripts cats gens).length :=
      (List.perm_insertionSort sortRel _).length_eq
    simp only [definesOf, List.length_map]
    rw [hlen]
    simp only [baseTable, List.length_append, List.length_map, List.length_cons,
      List.length_nil]
  · intro c h1 h2
    unfold charTok
    rw [if_neg h1, if_neg h2]

/-- Witness for C7-amended at the unmappable character `#`. -/
theorem generation_never_fails_witness :
    ('#' ≠ '_') ∧ ('#' ≠ '&') ∧ charTok '#' = "STR_" ++ String.mk ['#'] :=
  ⟨by decide, by decide,
    (generation_never_fails [] [] []).2 '#' (by decide) (by decide)⟩

/-- C8 counterexample: for the entry `L&` the source derives the identifier
`STRING_L_AMPERSAND0` — the ampersand becomes `_AMPERSAND` — not the
`STRING_LAMPERSAND0` that replacing `&` by the word `AMPERSAND` alone would
give. -/
theorem ident_not_spec_wording :
    identOfDefine "L&" = "STRING_L_AMPERSAND0" ∧
    identOfSpecWording "L&" = "STRING_LAMPERSAND0" ∧
    identOfDefine "L&" ≠ identOfSpecWording "L&" := by decide

/-- C8 amended: the identifier is derived from the name with `&` replaced by
`_AMPERSAND` — an underscore followed by the word `AMPERSAND` — every other
character (in particular `_`) kept as-is; and the symbol definitions and the
names-blob references compute identical identifiers, in order. -/
theorem ident_derivation (t : List (String × String)) :
    ((definesOf t).map Prod.fst = namesBlobRefs t) ∧
    (∀ u ∈ t, (replaceAmp u.1).data =
      u.1.data.flatMap fun c =>
        if c = '&' then '_' :: ("AMPERSAND" : String).data else [c]) := by
  constructor
  · simp [definesOf, namesBlobRefs, List.map_map]
  · intro u _
    have hlit : ("_AMPERSAND" : String).data =
        '_' :: ("AMPERSAND" : String).data := by decide
    simp only [replaceAmp, hlit]

/-- Witness for C8-amended at a one-entry table holding `L&`. -/
theorem ident_derivation_witness :
    ((("L&" : String), ("PT_LAMP" : String)) ∈
      [(("L&" : String), ("PT_LAMP" : String))]) ∧
    (replaceAmp "L&").data =
      "L&".data.flatMap (fun c =>
        if c = '&' then '_' :: ("AMPERSAND" : String).data else [c]) :=
  ⟨by decide, (ident_derivation [("L&", "PT_LAMP")]).2 ("L&", "PT_LAMP") (by decide)⟩

/-- C9: the generator is deterministic.  It reads nothing beyond its three
input lists (no clock, environment, or randomness appears anywhere in the
source, and its sort and string operations are pure), so it is embedded as
the pure function `generate`; runs on equal inputs produce byte-identical
output streams. -/
theorem generate_deterministic (s1 c1 g1 s2 c2 g2 : List String)
    (hs : s1 = s2) (hc : c1 = c2) (hg : g1 = g2) :
    generate s1 c1 g1 = generate s2 c2 g2 := by
  subst hs
  subst hc
  subst hg
  rfl

/-- Witness for C9 at the worked-example input. -/
theorem generate_deterministic_witness :
    (["Latin"] = (["Latin"] : List String)) ∧
    generate ["Latin"] ["Lu"] ["L"] = generate ["Latin"] ["Lu"] ["L"] :=
  ⟨rfl, generate_deterministic _ _ _ _ _ _ rfl rfl rfl⟩

set_option maxRecDepth 8192 in
/-- C10: the hard-coded input lists, merged with the two pseudo-names `L&`
and `Any`, satisfy the externally enforced precondition: all names pairwise
distinct, every name non-empty, and every character of every name an ASCII
letter, `_`, or `&`. -/
theorem curated_input_satisfies_precondition :
    ((baseTable script_names category_names general_category_names).map
      Prod.fst).Nodup ∧
    ∀ n ∈ (baseTable script_names category_names general_category_names).map
      Prod.fst, n ≠ "" ∧ ∀ c ∈ n.data, c.isAlpha ∨ c = '_' ∨ c = '&' := by
  constructor
  · decide
  · decide

end GenerateUtt
